import Mathlib

/-!
Shallow embedding of the autofee fee-control engine (the Python
wrapper scripts of this repository) for verification of its
natural-language specification.

Numeric conventions: Python floats are modelled as rationals (ℚ),
Python ints as ℤ/ℕ.  Python's built-in one-argument `round`
(round-half-to-even) is modelled by `pyround` below.  Timestamps are
integers counting seconds.
-/

/-- Python's one-argument `round` on a rational: round to the nearest
integer, ties going to the even integer (round-half-to-even). -/
def pyround (x : ℚ) : ℤ :=
  if x - ⌊x⌋ < 1/2 then ⌊x⌋
  else if 1/2 < x - ⌊x⌋ then ⌊x⌋ + 1
  else if ⌊x⌋ % 2 = 0 then ⌊x⌋ else ⌊x⌋ + 1

/-- `ALPHA` from `autofee_wrapper.py`: EMA smoothing factor. -/
def ALPHA : ℚ := 15/100

/-- `MIN_AVG_FEE` from `autofee_wrapper.py`. -/
def MIN_AVG_FEE : ℤ := 10

/-- One EMA update: `ema = ALPHA * true_fee_ppm + (1 - ALPHA) * ema`
(the `else` arm of the loop in `calculate_avg_fee_from_history`). -/
def emaStep (ema v : ℚ) : ℚ := ALPHA * v + (1 - ALPHA) * ema

/-- The indexed event loop of `calculate_avg_fee_from_history`
(`for i, record in enumerate(records)`): at `i = 0` with a zero
running value the first fee seeds the EMA, otherwise `emaStep`. -/
def emaLoop : ℚ → ℕ → List ℚ → ℚ
  | ema, _, [] => ema
  | ema, i, v :: rest =>
      emaLoop (if i = 0 ∧ ema = 0 then v else emaStep ema v) (i + 1) rest

/-- `calculate_avg_fee_from_history` from `autofee_wrapper.py`.
`stored` is the channel's entry in `avg_fees.json` (`none` when the key
is absent; `load_persisted_avg_fee` then yields `0`), `records` the
ascending-timestamp `true_fee_ppm` values returned by the window query,
`current_fee_ppm` the channel's live fee rate. -/
def calculate_avg_fee_from_history (stored : Option ℚ) (records : List ℚ)
    (current_fee_ppm : ℚ) : ℚ :=
  let persisted := stored.getD 0
  match records with
  | [] =>
      if 0 < persisted then persisted
      else
        match stored with
        | some v => v
        | none => current_fee_ppm
  | v :: rest =>
      ((max MIN_AVG_FEE (pyround (emaLoop persisted 0 (v :: rest))) : ℤ) : ℚ)

/-- The liquidity-curve target computation from `update_pivot_channels`
in `autofee_pivot_wrapper.py` (before rounding).  `p` is the module
constant `AVG_FEE_PIVOT` (default `0.5`), `r` the liquidity ratio
`local_balance / capacity`. -/
def pivot_set_fee (p avg_fee r : ℚ) : ℚ :=
  if 1/2 ≤ p then
    if p ≤ r then avg_fee * (1 - r) / (1 - p)
    else avg_fee * (1 + (p - r) / (1 - p))
  else
    let zero_point := 2 * p
    if zero_point ≤ r then 0
    else if p ≤ r then avg_fee * (zero_point - r) / (zero_point - p)
    else avg_fee * (1 + (p - r) / p)

/-- `set_fee = max(0, round(set_fee))` in `update_pivot_channels`. -/
def pivot_target (p avg_fee r : ℚ) : ℤ :=
  max 0 (pyround (pivot_set_fee p avg_fee r))

/-- `ADJUSTMENT_FACTOR`, identical in `autofee_wrapper.py` and
`autofee_pivot_wrapper.py`. -/
def ADJUSTMENT_FACTOR : ℚ := 5/100

/-- The rate-limited adjustment computed in `generate_ini`
(`autofee_wrapper.py`) and `update_pivot_channels`
(`autofee_pivot_wrapper.py`): `adjustment = ADJUSTMENT_FACTOR *
(set_fee - current_fee)`; when nonzero, its magnitude is
`max(1, abs(round(adjustment)))` with the raw sign. -/
def fee_adjustment (current_fee set_fee : ℤ) : ℤ :=
  let adjustment : ℚ := ADJUSTMENT_FACTOR * ((set_fee : ℚ) - (current_fee : ℚ))
  if adjustment = 0 then 0
  else max 1 |pyround adjustment| * (if 0 < adjustment then 1 else -1)

/-- `new_fee = max(0, current_fee + adjustment)`. -/
def rate_limited_new_fee (current_fee set_fee : ℤ) : ℤ :=
  max 0 (current_fee + fee_adjustment current_fee set_fee)

/-- `STAGNANT_RATIO_THRESHOLD` from `autofee_stagnant_wrapper.py`. -/
def STAGNANT_RATIO_THRESHOLD : ℚ := 20/100

/-- `STAGNANT_HOURS` from `autofee_stagnant_wrapper.py`. -/
def STAGNANT_HOURS : ℤ := 24

/-- `check_recent_forwards` from `autofee_stagnant_wrapper.py`:
true when some ledger forward for the channel has
`timestamp >= now - STAGNANT_HOURS` (in seconds). -/
def check_recent_forwards (now : ℤ) (forwards : List ℤ) : Bool :=
  forwards.any (fun ts => now - STAGNANT_HOURS * 3600 ≤ ts)

/-- The per-channel state transition of `identify_and_reduce_stagnant`
(`autofee_stagnant_wrapper.py`): given the current time, the channel's
liquidity ratio and the ledger forward timestamps for the channel,
returns the updated `(last_change, is_stagnant)` pair.  With recent
forwards the timer resets to `now` and the flag clears; otherwise
`last_change` is the newest forward timestamp (`SELECT MAX(timestamp)`;
a falsy result, no rows or timestamp `0`, falls back to thirty days in
the past) and the channel is stagnant when the ratio is above the
threshold and the elapsed time exceeds `STAGNANT_HOURS`. -/
def stagnant_channel_update (now : ℤ) (current_ratio : ℚ) (forwards : List ℤ) :
    ℤ × Bool :=
  if check_recent_forwards now forwards then (now, false)
  else
    let last_change :=
      match forwards with
      | [] => now - 30 * 86400
      | f :: fs =>
          let m := fs.foldl max f
          if m = 0 then now - 30 * 86400 else m
    (last_change,
      decide (STAGNANT_RATIO_THRESHOLD < current_ratio) &&
      decide (STAGNANT_HOURS * 3600 < now - last_change))

/-- `NEGATIVE_INBOUND_TRIGGER` from `autofee_neginb_wrapper.py`
(working-range percentage, 0–100 scale). -/
def NEGATIVE_INBOUND_TRIGGER : ℚ := 20

/-- `NEGATIVE_INBOUND_REMOVE` from `autofee_neginb_wrapper.py`. -/
def NEGATIVE_INBOUND_REMOVE : ℚ := 40

/-- `MAX_REMOTE_FEE_FOR_INBOUND` from `autofee_neginb_wrapper.py`. -/
def MAX_REMOTE_FEE_FOR_INBOUND : ℤ := 2

/-- `INITIAL_INBOUND_PCT` from `autofee_neginb_wrapper.py`. -/
def INITIAL_INBOUND_PCT : ℤ := 30

/-- `INCREMENT_PCT` from `autofee_neginb_wrapper.py`. -/
def INCREMENT_PCT : ℤ := 1

/-- `MAX_INBOUND_PCT` from `autofee_neginb_wrapper.py`. -/
def MAX_INBOUND_PCT : ℤ := 70

/-- The negative inbound fee for a percentage of the average fee:
`-1 * int(round(avg_fee * pct / 100))`. -/
def neginb_fee_of_pct (avg_fee : ℚ) (pct : ℤ) : ℤ :=
  -(pyround (avg_fee * (pct : ℚ) / 100))

/-- `calculate_neginb_fee` from `autofee_neginb_wrapper.py`.
`working_range_pct` is the liquidity ratio × 100, `current_pct` and
`latch` come from the persisted state (`current_pct`,
`has_been_above_threshold`), `remote_fee` is the counterparty's
outbound fee rate, `excluded` whether the channel is in
`EXCLUDE_REMOTE_FEE_CHECK`.  Returns
`(inbound_fee, new_pct, new_latch)`. -/
def calculate_neginb_fee (working_range_pct avg_fee : ℚ) (current_pct : ℤ)
    (latch : Bool) (remote_fee : ℤ) (excluded : Bool) : ℤ × ℤ × Bool :=
  let latch' := latch || decide (NEGATIVE_INBOUND_TRIGGER < working_range_pct)
  if NEGATIVE_INBOUND_REMOVE < working_range_pct then (0, 0, latch')
  else if working_range_pct < NEGATIVE_INBOUND_TRIGGER ∧ latch' = true then
    if excluded = false ∧ MAX_REMOTE_FEE_FOR_INBOUND < remote_fee then
      (0, 0, latch')
    else if current_pct = 0 then
      (neginb_fee_of_pct avg_fee INITIAL_INBOUND_PCT, INITIAL_INBOUND_PCT, latch')
    else if current_pct < MAX_INBOUND_PCT then
      let new_pct := min (current_pct + INCREMENT_PCT) MAX_INBOUND_PCT
      (neginb_fee_of_pct avg_fee new_pct, new_pct, latch')
    else
      (neginb_fee_of_pct avg_fee current_pct, current_pct, latch')
  else if working_range_pct < NEGATIVE_INBOUND_TRIGGER ∧ latch' = false then
    (0, 0, latch')
  else if 0 < current_pct then
    (neginb_fee_of_pct avg_fee current_pct, current_pct, latch')
  else (0, 0, latch')

/-- The `min_type` of one `CHANNEL_MINIMUMS` entry in
`autofee_minfee_wrapper.py`: `'static'` with an optional `min_value`,
`'avg_fee'` with an optional `avg_fee_percentage`, or an unknown tag. -/
inductive MinType
  | static (min_value : Option ℤ)
  | avg_fee (percentage : Option ℚ)
  | unknown
deriving DecidableEq

/-- One entry of `CHANNEL_MINIMUMS` in `autofee_minfee_wrapper.py`. -/
structure ChannelMinimum where
  chan_id : ℕ
  min_type : MinType
  enabled : Bool

/-- `get_channel_minimum` from `autofee_minfee_wrapper.py`: the floor
for a channel, or `none` when it cannot be determined.  `avg_fees` is
the content of `avg_fees.json`. -/
def get_channel_minimum (cfg : ChannelMinimum) (avg_fees : ℕ → Option ℚ) :
    Option ℤ :=
  match cfg.min_type with
  | .static none => none
  | .static (some v) => some v
  | .avg_fee po =>
      match avg_fees cfg.chan_id with
      | none => none
      | some a =>
          let percentage := po.getD 1
          let percentage := if percentage ≤ 0 then 1 else percentage
          some (pyround (a * percentage))
  | .unknown => none

/-- One iteration of the channel loop in `enforce_minimum_fees`
(`autofee_minfee_wrapper.py`).  The Policy Store is viewed as the map
from scid to the section's parsed `fee_ppm` (`none`: section missing,
key missing or unparsable).  The second component counts raised fees
(`channels_raised`); the INI file is rewritten only when it is
positive. -/
def enforce_step (avg_fees : ℕ → Option ℚ) (acc : (ℕ → Option ℤ) × ℕ)
    (cfg : ChannelMinimum) : (ℕ → Option ℤ) × ℕ :=
  match get_channel_minimum cfg avg_fees with
  | none => acc
  | some min_fee =>
      match acc.1 cfg.chan_id with
      | none => acc
      | some current_fee =>
          if current_fee < min_fee then
            (fun s => if s = cfg.chan_id then some min_fee else acc.1 s,
              acc.2 + 1)
          else acc

/-- `enforce_minimum_fees` from `autofee_minfee_wrapper.py`: fold the
enabled entries of `CHANNEL_MINIMUMS` over the store; returns the final
fee view and the number of raised fees. -/
def enforce_minimum_fees (cfgs : List ChannelMinimum)
    (avg_fees : ℕ → Option ℚ) (store : ℕ → Option ℤ) : (ℕ → Option ℤ) × ℕ :=
  (cfgs.filter (fun c => c.enabled)).foldl (enforce_step avg_fees) (store, 0)

/-- A Policy Store section as `configparser` holds it in memory: a
section name and the ordered `key = value` options (all strings,
modelled as character lists). -/
structure IniSec where
  name : List Char
  options : List (List Char × List Char)
deriving DecidableEq

/-- The classification of one raw line of the INI file. -/
inductive IniLine
  | blank
  | comment
  | header (name : List Char)
  | kv (key value : List Char)
  | junk
deriving DecidableEq

/-- `str.strip()` restricted to spaces (the only whitespace the engine
ever writes inside a line). -/
def stripSpaces (l : List Char) : List Char :=
  ((l.dropWhile (· = ' ')).reverse.dropWhile (· = ' ')).reverse

/-- `configparser`'s key/value delimiters `=` and `:`. -/
def isDelim (c : Char) : Bool := c = '=' ∨ c = ':'

/-- Split a line at the first delimiter (the non-greedy option part of
`configparser`'s option regex); `none` when the line has none. -/
def splitAtDelim : List Char → Option (List Char × List Char)
  | [] => none
  | c :: rest =>
      if isDelim c then some ([], rest)
      else
        match splitAtDelim rest with
        | none => none
        | some (k, v) => some (c :: k, v)

/-- How `configparser.read` treats one line: blank lines are skipped, a
line whose first non-space character is `#` or `;` is a comment, a
`[...]` line with a nonempty body opens a section, and otherwise the
line is split at the first delimiter into a stripped key and value. -/
def classifyIniLine (raw : List Char) : IniLine :=
  match stripSpaces raw with
  | [] => .blank
  | c :: rest =>
      if c = '#' ∨ c = ';' then .comment
      else if c = '[' ∧ rest.getLast? = some ']' ∧ rest.dropLast ≠ [] then
        .header rest.dropLast
      else
        match splitAtDelim (c :: rest) with
        | some (k, v) => .kv (stripSpaces k) (stripSpaces v)
        | none => .junk

/-- `configparser.write` for one section: the `[name]` line, one
`key = value` line per option, then a blank separator line. -/
def writeIniSec (s : IniSec) : List (List Char) :=
  ('[' :: s.name ++ [']']) ::
    (s.options.map (fun kv => kv.1 ++ ' ' :: '=' :: ' ' :: kv.2) ++ [[]])

/-- `configparser.write` applied to the whole store. -/
def writeIni (store : List IniSec) : List (List Char) :=
  (store.map writeIniSec).flatten

/-- The section-accumulating loop of `configparser.read`: `name` and
`opts` are the open section. -/
def parseIniGo : List (List Char) → List Char →
    List (List Char × List Char) → List IniSec
  | [], name, opts => [⟨name, opts⟩]
  | l :: rest, name, opts =>
      match classifyIniLine l with
      | .header n => ⟨name, opts⟩ :: parseIniGo rest n []
      | .kv k v => parseIniGo rest name (opts ++ [(k, v)])
      | _ => parseIniGo rest name opts

/-- `configparser.read` of a list of raw lines: skip up to the first
section header, then accumulate sections. -/
def parseIni : List (List Char) → List IniSec
  | [] => []
  | l :: rest =>
      match classifyIniLine l with
      | .header n => parseIniGo rest n []
      | _ => parseIni rest

/-- Well-formedness of an option key for the Policy Store round trip:
nonempty, no surrounding space, not starting with a comment prefix or a
section bracket, and free of the key/value delimiters. -/
def goodKey (k : List Char) : Prop :=
  k ≠ [] ∧ k.head? ≠ some ' ' ∧ k.head? ≠ some '#' ∧ k.head? ≠ some ';' ∧
  k.head? ≠ some '[' ∧ k.getLast? ≠ some ' ' ∧ ∀ c ∈ k, isDelim c = false

/-- Well-formedness of an option value for the Policy Store round
trip: nonempty and no surrounding space. -/
def goodVal (v : List Char) : Prop :=
  v ≠ [] ∧ v.head? ≠ some ' ' ∧ v.getLast? ≠ some ' '

/-- Well-formedness of a Policy Store section: nonempty name and
well-formed options. -/
def goodSec (s : IniSec) : Prop :=
  s.name ≠ [] ∧ ∀ kv ∈ s.options, goodKey kv.1 ∧ goodVal kv.2

instance decidableGoodKey (k : List Char) : Decidable (goodKey k) := by
  unfold goodKey; infer_instance

instance decidableGoodVal (v : List Char) : Decidable (goodVal v) := by
  unfold goodVal; infer_instance

instance decidableGoodSec (s : IniSec) : Decidable (goodSec s) := by
  unfold goodSec; infer_instance

/-- The final fee of a channel is at least `m` (vacuous when absent). -/
def feeAtLeast (m : ℤ) (o : Option ℤ) : Prop := ∀ c, o = some c → m ≤ c

theorem emaLoop_pos_index (l : List ℚ) : ∀ (ema : ℚ) (i : ℕ), i ≠ 0 →
    emaLoop ema i l = l.foldl emaStep ema := by
  induction l with
  | nil => intro ema i _; rfl
  | cons v rest ih =>
      intro ema i hi
      simp only [emaLoop, List.foldl_cons]
      rw [if_neg (by exact fun h => hi h.1)]
      exact ih (emaStep ema v) (i + 1) (Nat.succ_ne_zero i)

/-- C1: the Average-Fee Tracker processes the new events in order.
With no persisted average the first event seeds the EMA and the rest
fold through `emaStep`; with a nonzero persisted average every event
(including the first) folds through `emaStep`, which is
`α·event + (1-α)·ema` with `α = 0.15`; the result is rounded and
clamped from below by `MIN_AVG_FEE`.  A prior average of `1000` and one
new observation of `500` yield `925`. -/
theorem avg_fee_tracker_ema :
    (∀ (v : ℚ) (rest : List ℚ) (cf : ℚ),
      calculate_avg_fee_from_history none (v :: rest) cf =
        ((max MIN_AVG_FEE (pyround (rest.foldl emaStep v)) : ℤ) : ℚ)) ∧
    (∀ (p : ℚ), p ≠ 0 → ∀ (v : ℚ) (rest : List ℚ) (cf : ℚ),
      calculate_avg_fee_from_history (some p) (v :: rest) cf =
        ((max MIN_AVG_FEE (pyround ((v :: rest).foldl emaStep p)) : ℤ) : ℚ)) ∧
    (∀ (ema v : ℚ), emaStep ema v = (15/100) * v + (1 - 15/100) * ema) ∧
    calculate_avg_fee_from_history (some 1000) [500] 0 = 925 := by
  refine ⟨?_, ?_, ?_, ?_⟩
  · intro v rest cf
    have h0 : emaLoop 0 0 (v :: rest) = rest.foldl emaStep v := by
      show emaLoop (if (0 : ℕ) = 0 ∧ (0 : ℚ) = 0 then v else emaStep 0 v) 1 rest = _
      rw [if_pos ⟨rfl, rfl⟩, emaLoop_pos_index rest v 1 one_ne_zero]
    simp only [calculate_avg_fee_from_history, Option.getD_none, h0]
  · intro p hp v rest cf
    have h0 : emaLoop p 0 (v :: rest) = (v :: rest).foldl emaStep p := by
      show emaLoop (if (0 : ℕ) = 0 ∧ p = 0 then v else emaStep p v) 1 rest = _
      rw [if_neg (fun h => hp h.2), emaLoop_pos_index rest (emaStep p v) 1 one_ne_zero,
        List.foldl_cons]
    simp only [calculate_avg_fee_from_history, Option.getD_some, h0]
  · intro ema v; simp [emaStep, ALPHA]
  · norm_num [calculate_avg_fee_from_history, emaLoop, emaStep, ALPHA,
      MIN_AVG_FEE, pyround]

/-- Witness for C1 at a concrete input: persisted average `1000`, one
new event `500`. -/
theorem avg_fee_tracker_ema_witness :
    calculate_avg_fee_from_history (some 1000) [500] 0 =
      ((max MIN_AVG_FEE (pyround (([500] : List ℚ).foldl emaStep 1000)) : ℤ) : ℚ) :=
  avg_fee_tracker_ema.2.1 1000 (by decide) 500 [] 0

/-- C7 counterexample: a channel with no ledger events, no persisted
average and a live current fee rate of `0` bootstraps to `0`, which is
below the configured floor `MIN_AVG_FEE = 10`. -/
theorem avg_fee_floor_cex :
    calculate_avg_fee_from_history none [] 0 < (MIN_AVG_FEE : ℚ) := by
  norm_num [calculate_avg_fee_from_history, MIN_AVG_FEE]

/-- C7 amended: the floor only holds for updates that process at least
one new ledger event; the no-new-events paths (persisted passthrough
and bootstrap from the live fee rate) can return values below
`MIN_AVG_FEE`. -/
theorem avg_fee_floor (stored : Option ℚ) (records : List ℚ) (cf : ℚ)
    (h : records ≠ []) :
    (MIN_AVG_FEE : ℚ) ≤ calculate_avg_fee_from_history stored records cf := by
  match records with
  | [] => exact absurd rfl h
  | v :: rest =>
      simp only [calculate_avg_fee_from_history]
      exact_mod_cast le_max_left MIN_AVG_FEE _

/-- Witness for C7 (amended) at a concrete input: one event. -/
theorem avg_fee_floor_witness :
    (MIN_AVG_FEE : ℚ) ≤ calculate_avg_fee_from_history (some 1000) [500] 0 :=
  avg_fee_floor (some 1000) [500] 0 (by decide)

/-- C2: the Liquidity Curve Calculator's target before rounding follows
the two-segment pivot formulas — for `p ≥ 1/2`, `A·(1-r)/(1-p)` at or
above the pivot and `A·(1+(p-r)/(1-p))` below it; for `p < 1/2` with
`z = 2p`, `0` above `z`, `A·(z-r)/(z-p)` between `p` and `z`, and
`A·(1+(p-r)/p)` below `p` — and the final target is
`max(0, round(target))`.  With `A = 1000`, `p = 0.6`: `r = 0.6 → 1000`,
`r = 0.2 → 2000`, `r = 1.0 → 0`. -/
theorem liquidity_curve_target :
    (∀ (p A r : ℚ), 0 ≤ A → 0 ≤ r → r ≤ 1 →
      ((1/2 ≤ p →
          (p ≤ r → pivot_set_fee p A r = A * (1 - r) / (1 - p)) ∧
          (r < p → pivot_set_fee p A r = A * (1 + (p - r) / (1 - p)))) ∧
       (p < 1/2 →
          (2 * p ≤ r → pivot_set_fee p A r = 0) ∧
          (p ≤ r → r < 2 * p →
            pivot_set_fee p A r = A * (2 * p - r) / (2 * p - p)) ∧
          (r < p → pivot_set_fee p A r = A * (1 + (p - r) / p))) ∧
       pivot_target p A r = max 0 (pyround (pivot_set_fee p A r)))) ∧
    pivot_target (3/5) 1000 (3/5) = 1000 ∧
    pivot_target (3/5) 1000 (1/5) = 2000 ∧
    pivot_target (3/5) 1000 1 = 0 := by
  refine ⟨?_, ?_, ?_, ?_⟩
  · intro p A r hA hr0 hr1
    refine ⟨fun h1 => ⟨fun h2 => ?_, fun h2 => ?_⟩,
      fun h1 => ⟨fun h2 => ?_, fun h2 h3 => ?_, fun h2 => ?_⟩, rfl⟩
    · simp only [pivot_set_fee, if_pos h1, if_pos h2]
    · simp only [pivot_set_fee, if_pos h1, if_neg (not_le.mpr h2)]
    · simp only [pivot_set_fee, if_neg (not_le.mpr h1), if_pos h2]
    · simp only [pivot_set_fee, if_neg (not_le.mpr h1),
        if_neg (not_le.mpr h3), if_pos h2]
    · have hz : ¬ 2 * p ≤ r := by intro hzr; linarith
      simp only [pivot_set_fee, if_neg (not_le.mpr h1), if_neg hz,
        if_neg (not_le.mpr h2)]
  · norm_num [pivot_target, pivot_set_fee, pyround]
  · norm_num [pivot_target, pivot_set_fee, pyround]
  · norm_num [pivot_target, pivot_set_fee, pyround]

/-- Witness for C2 at a concrete input: `p = 1`, `A = 1000`, `r = 1`
in the upper segment. -/
theorem liquidity_curve_target_witness :
    pivot_set_fee 1 1000 1 = 1000 * (1 - 1) / (1 - 1) :=
  ((liquidity_curve_target.1 1 1000 1 (by decide) (by decide) (by decide)).1
    (by norm_num)).1 (by decide)

/-- C3: the applied fee moves by the rate-limited step
`ADJUSTMENT_FACTOR * (target - current)`: a zero raw step is applied as
is, a nonzero raw step is applied with magnitude
`max(1, abs(round(step)))` and the raw step's sign (so at least `1` ppm
of movement), and the new fee is `max(0, current + step)`.  Examples:
`current = 100, target = 500 → 120`;
`current = 100, target = 101 → 101`. -/
theorem rate_limited_adjustment :
    (∀ current target : ℤ,
      (ADJUSTMENT_FACTOR * ((target : ℚ) - (current : ℚ)) = 0 →
        fee_adjustment current target = 0) ∧
      (ADJUSTMENT_FACTOR * ((target : ℚ) - (current : ℚ)) ≠ 0 →
        |fee_adjustment current target| =
          max 1 |pyround (ADJUSTMENT_FACTOR * ((target : ℚ) - (current : ℚ)))| ∧
        (0 < ADJUSTMENT_FACTOR * ((target : ℚ) - (current : ℚ)) →
          1 ≤ fee_adjustment current target) ∧
        (ADJUSTMENT_FACTOR * ((target : ℚ) - (current : ℚ)) < 0 →
          fee_adjustment current target ≤ -1)) ∧
      rate_limited_new_fee current target =
        max 0 (current + fee_adjustment current target)) ∧
    rate_limited_new_fee 100 500 = 120 ∧
    rate_limited_new_fee 100 101 = 101 := by
  refine ⟨fun current target => ⟨?_, ?_, rfl⟩, ?_, ?_⟩
  · intro h
    simp only [fee_adjustment]
    rw [if_pos h]
  · intro h
    have h1m : (1 : ℤ) ≤
        max 1 |pyround (ADJUSTMENT_FACTOR * ((target : ℚ) - (current : ℚ)))| :=
      le_max_left _ _
    simp only [fee_adjustment]
    rw [if_neg h]
    by_cases hp : 0 < ADJUSTMENT_FACTOR * ((target : ℚ) - (current : ℚ))
    · rw [if_pos hp, mul_one]
      exact ⟨abs_of_nonneg (le_trans zero_le_one h1m), fun _ => h1m,
        fun hn => absurd hn (not_lt.mpr hp.le)⟩
    · rw [if_neg hp, mul_neg_one]
      exact ⟨by rw [abs_neg]; exact abs_of_nonneg (le_trans zero_le_one h1m),
        fun hq => absurd hq hp, fun _ => neg_le_neg h1m⟩
  · norm_num [rate_limited_new_fee, fee_adjustment, ADJUSTMENT_FACTOR, pyround]
  · norm_num [rate_limited_new_fee, fee_adjustment, ADJUSTMENT_FACTOR, pyround]

/-- Witness for C3 at a concrete input: `current = 100`,
`target = 500`, raw step `20`. -/
theorem rate_limited_adjustment_witness :
    |fee_adjustment 100 500| =
      max 1 |pyround (ADJUSTMENT_FACTOR * ((500 : ℚ) - (100 : ℚ)))| :=
  ((rate_limited_adjustment.1 100 500).2.1
    (by norm_num [ADJUSTMENT_FACTOR])).1

/-- C4: a channel comes out of the evaluation stagnant only when its
liquidity ratio is above `STAGNANT_RATIO_THRESHOLD`, no ledger forward
for it lies within the `STAGNANT_HOURS` window, and at least
`STAGNANT_HOURS` have passed since the recorded last activity;
conversely any forward inside the window clears the flag and resets the
activity-timer reference to the current time in the same cycle. -/
theorem stagnation_detector_transitions :
    ∀ (now : ℤ) (ratio : ℚ) (forwards : List ℤ),
      ((stagnant_channel_update now ratio forwards).2 = true →
        STAGNANT_RATIO_THRESHOLD < ratio ∧
        (∀ ts ∈ forwards, ts < now - STAGNANT_HOURS * 3600) ∧
        STAGNANT_HOURS * 3600 ≤
          now - (stagnant_channel_update now ratio forwards).1) ∧
      ((∃ ts ∈ forwards, now - STAGNANT_HOURS * 3600 ≤ ts) →
        (stagnant_channel_update now ratio forwards).2 = false ∧
        (stagnant_channel_update now ratio forwards).1 = now) := by
  intro now ratio forwards
  by_cases hr : check_recent_forwards now forwards = true
  · constructor
    · intro hst
      exfalso
      simp [stagnant_channel_update, hr] at hst
    · intro _
      simp [stagnant_channel_update, hr]
  · have hall : ∀ ts ∈ forwards, ts < now - STAGNANT_HOURS * 3600 := by
      intro ts hts
      by_contra hlt
      exact hr (by
        simp only [check_recent_forwards, List.any_eq_true, decide_eq_true_eq]
        exact ⟨ts, hts, not_lt.mp hlt⟩)
    have hf : check_recent_forwards now forwards = false := Bool.eq_false_iff.mpr hr
    constructor
    · intro hst
      simp only [stagnant_channel_update, hf, Bool.false_eq_true, if_false] at hst ⊢
      rw [Bool.and_eq_true, decide_eq_true_eq, decide_eq_true_eq] at hst
      exact ⟨hst.1, hall, le_of_lt hst.2⟩
    · rintro ⟨ts, hts, hle⟩
      exact absurd (by
        simp only [check_recent_forwards, List.any_eq_true, decide_eq_true_eq]
        exact ⟨ts, hts, hle⟩) hr

/-- Witness for C4 at a concrete input: one forward inside the window
clears the flag and resets the timer to now. -/
theorem stagnation_detector_transitions_witness :
    (stagnant_channel_update 200000 1 [199999]).2 = false ∧
    (stagnant_channel_update 200000 1 [199999]).1 = 200000 :=
  (stagnation_detector_transitions 200000 1 [199999]).2
    ⟨199999, by simp, by norm_num [STAGNANT_HOURS]⟩

/-- C10: a channel with no ledger forward at all is given a last
activity thirty days in the past, so on its very first evaluation it is
stagnant exactly when its liquidity ratio exceeds the threshold. -/
theorem stagnant_new_channel (now : ℤ) (ratio : ℚ) :
    (stagnant_channel_update now ratio []).1 = now - 30 * 86400 ∧
    (STAGNANT_RATIO_THRESHOLD < ratio →
      (stagnant_channel_update now ratio []).2 = true) ∧
    (ratio ≤ STAGNANT_RATIO_THRESHOLD →
      (stagnant_channel_update now ratio []).2 = false) := by
  have h1 : stagnant_channel_update now ratio [] =
      (now - 30 * 86400, decide (STAGNANT_RATIO_THRESHOLD < ratio)) := by
    simp only [stagnant_channel_update, check_recent_forwards, List.any_nil,
      Bool.false_eq_true, if_false]
    rw [decide_eq_true (show STAGNANT_HOURS * 3600 < now - (now - 30 * 86400) by
      rw [sub_sub_cancel]; norm_num [STAGNANT_HOURS]), Bool.and_true]
  refine ⟨by rw [h1], fun h => ?_, fun h => ?_⟩
  · rw [h1]; exact decide_eq_true h
  · rw [h1]; exact decide_eq_false (not_lt.mpr h)

/-- Witness for C10 at a concrete input: ratio `1`, never forwarded. -/
theorem stagnant_new_channel_witness :
    (stagnant_channel_update 1000000 1 []).2 = true :=
  (stagnant_new_channel 1000000 1).2.1 (by norm_num [STAGNANT_RATIO_THRESHOLD])

/-- C5: with the ratio below `NEGATIVE_INBOUND_TRIGGER` and the latch
never set, the controller returns zero inbound fee and percent with the
latch still clear; and the latch is monotone: once true it is returned
true by every call. -/
theorem neginb_latch_guard :
    ∀ (wr avg : ℚ) (pct : ℤ) (latch : Bool) (remote : ℤ) (excluded : Bool),
      (wr < NEGATIVE_INBOUND_TRIGGER → latch = false →
        calculate_neginb_fee wr avg pct latch remote excluded = (0, 0, false)) ∧
      (latch = true →
        (calculate_neginb_fee wr avg pct latch remote excluded).2.2 = true) := by
  intro wr avg pct latch remote excluded
  constructor
  · intro hw hl
    subst hl
    have hd : decide (NEGATIVE_INBOUND_TRIGGER < wr) = false :=
      decide_eq_false (not_lt.mpr hw.le)
    have hrem : ¬ NEGATIVE_INBOUND_REMOVE < wr := by
      unfold NEGATIVE_INBOUND_REMOVE
      unfold NEGATIVE_INBOUND_TRIGGER at hw
      linarith
    simp only [calculate_neginb_fee, hd, Bool.or_false, if_neg hrem]
    rw [if_neg (fun h => Bool.false_ne_true h.2)]
    rw [if_pos ⟨hw, trivial⟩]
  · intro hl
    subst hl
    simp only [calculate_neginb_fee, Bool.true_or]
    split_ifs <;> rfl

/-- Witness for C5 at a concrete input: ratio `10%`, latch clear. -/
theorem neginb_latch_guard_witness :
    calculate_neginb_fee 10 1000 0 false 1 false = (0, 0, false) :=
  (neginb_latch_guard 10 1000 0 false 1 false).1
    (by norm_num [NEGATIVE_INBOUND_TRIGGER]) rfl

/-- C6 counterexample: a ramping channel (ratio `10 < TRIGGER`, latch
set, stored percent `35`) whose counterparty fee `3` ppm exceeds the
ceiling `2` ppm gets its percent reset to `0 < 35`: the percent is not
non-decreasing while ramping when the re-evaluated counterparty-fee
check fails. -/
theorem neginb_pct_monotone_cex :
    (10 : ℚ) < NEGATIVE_INBOUND_TRIGGER ∧
    (calculate_neginb_fee 10 1000 35 true 3 false).2.1 < 35 := by
  constructor
  · norm_num [NEGATIVE_INBOUND_TRIGGER]
  · norm_num [calculate_neginb_fee, NEGATIVE_INBOUND_TRIGGER,
      NEGATIVE_INBOUND_REMOVE, MAX_REMOTE_FEE_FOR_INBOUND]

/-- C6 amended: starting from a stored percent in `[0, MAX_INBOUND_PCT]`
the returned percent stays in that range; while ramping (ratio below
`NEGATIVE_INBOUND_TRIGGER` with the latch set) the percent is
non-decreasing provided the re-evaluated counterparty-fee ceiling check
passes (channel allow-listed or counterparty fee at most the ceiling);
when that check fails on an increment attempt the percent resets
to `0`. -/
theorem neginb_pct_bounds :
    ∀ (wr avg : ℚ) (pct : ℤ) (latch : Bool) (remote : ℤ) (excluded : Bool),
      (0 ≤ pct → pct ≤ MAX_INBOUND_PCT →
        0 ≤ (calculate_neginb_fee wr avg pct latch remote excluded).2.1 ∧
        (calculate_neginb_fee wr avg pct latch remote excluded).2.1 ≤
          MAX_INBOUND_PCT) ∧
      (wr < NEGATIVE_INBOUND_TRIGGER → latch = true →
        (excluded = true ∨ remote ≤ MAX_REMOTE_FEE_FOR_INBOUND) →
        pct ≤ (calculate_neginb_fee wr avg pct latch remote excluded).2.1) ∧
      (wr < NEGATIVE_INBOUND_TRIGGER → latch = true → excluded = false →
        MAX_REMOTE_FEE_FOR_INBOUND < remote →
        (calculate_neginb_fee wr avg pct latch remote excluded).2.1 = 0) := by
  intro wr avg pct latch remote excluded
  refine ⟨fun h0 h70 => ?_, fun hw hl hpass => ?_, fun hw hl hex hrf => ?_⟩
  · unfold MAX_INBOUND_PCT at h70 ⊢
    simp only [calculate_neginb_fee, INITIAL_INBOUND_PCT, INCREMENT_PCT,
      MAX_INBOUND_PCT]
    split_ifs <;> exact ⟨by simp <;> omega, by simp <;> omega⟩
  · subst hl
    have hd2 : ¬ NEGATIVE_INBOUND_REMOVE < wr := by
      unfold NEGATIVE_INBOUND_REMOVE
      unfold NEGATIVE_INBOUND_TRIGGER at hw
      linarith
    have hchk : ¬ (excluded = false ∧ MAX_REMOTE_FEE_FOR_INBOUND < remote) := by
      rintro ⟨he, hrem⟩
      rcases hpass with h | h
      · rw [he] at h; exact Bool.false_ne_true h
      · exact absurd hrem (not_lt.mpr h)
    simp only [calculate_neginb_fee, Bool.true_or, if_neg hd2, hw, true_and,
      if_neg hchk, INITIAL_INBOUND_PCT, INCREMENT_PCT, MAX_INBOUND_PCT,
      if_true, if_false, and_true, and_false]
    split_ifs <;> simp <;> omega
  · subst hl
    have hd2 : ¬ NEGATIVE_INBOUND_REMOVE < wr := by
      unfold NEGATIVE_INBOUND_REMOVE
      unfold NEGATIVE_INBOUND_TRIGGER at hw
      linarith
    simp [calculate_neginb_fee, if_neg hd2, hw,
      if_pos (⟨hex, hrf⟩ : excluded = false ∧ MAX_REMOTE_FEE_FOR_INBOUND < remote)]

/-- Witness for C6 (amended) at a concrete input. -/
theorem neginb_pct_bounds_witness :
    0 ≤ (calculate_neginb_fee 10 1000 0 true 1 false).2.1 ∧
    (calculate_neginb_fee 10 1000 0 true 1 false).2.1 ≤ MAX_INBOUND_PCT :=
  (neginb_pct_bounds 10 1000 0 true 1 false).1 (by decide) (by decide)

theorem dropWhile_space_of_head (l : List Char) (h : l.head? ≠ some ' ') :
    l.dropWhile (· = ' ') = l := by
  cases l with
  | nil => rfl
  | cons c t =>
      have hc : ¬ c = ' ' := fun hc => h (by rw [hc]; rfl)
      simp [List.dropWhile_cons, hc]

theorem stripSpaces_noop (l : List Char) (h1 : l.head? ≠ some ' ')
    (h2 : l.getLast? ≠ some ' ') : stripSpaces l = l := by
  unfold stripSpaces
  rw [dropWhile_space_of_head l h1]
  rw [dropWhile_space_of_head l.reverse (by rw [List.head?_reverse]; exact h2)]
  exact List.reverse_reverse l

theorem splitAtDelim_append (k : List Char) (hk : ∀ c ∈ k, isDelim c = false)
    (d : Char) (hd : isDelim d = true) (tail : List Char) :
    splitAtDelim (k ++ d :: tail) = some (k, tail) := by
  induction k with
  | nil => simp [splitAtDelim, hd]
  | cons c k' ih =>
      have hc : isDelim c = false := hk c (List.mem_cons_self c k')
      have ih' := ih (fun x hx => hk x (List.mem_cons_of_mem c hx))
      simp [splitAtDelim, hc, ih']

theorem getLast_append_ne_nil (l1 l2 : List Char) (h : l2 ≠ []) :
    (l1 ++ l2).getLast? = l2.getLast? := by
  rw [List.getLast?_append]
  cases h2 : l2.getLast? with
  | none => exact absurd (List.getLast?_eq_none_iff.mp h2) h
  | some x => rfl

theorem stripSpaces_key_pad (k : List Char) (h0 : k ≠ [])
    (h1 : k.head? ≠ some ' ') (h2 : k.getLast? ≠ some ' ') :
    stripSpaces (k ++ [' ']) = k := by
  unfold stripSpaces
  have hfront : List.dropWhile (· = ' ') (k ++ [' ']) = k ++ [' '] := by
    cases k with
    | nil => exact absurd rfl h0
    | cons c k' =>
        have hc : ¬ c = ' ' := fun hc => h1 (by rw [hc]; rfl)
        simp [List.dropWhile_cons, hc]
  rw [hfront]
  have hrev : (k ++ [' ']).reverse = ' ' :: k.reverse := by
    simp [List.reverse_append]
  rw [hrev]
  have hback : List.dropWhile (· = ' ') (' ' :: k.reverse) = k.reverse := by
    rw [List.dropWhile_cons, if_pos (by decide)]
    exact dropWhile_space_of_head k.reverse
      (by rw [List.head?_reverse]; exact h2)
  rw [hback, List.reverse_reverse]

theorem stripSpaces_val_pad (v : List Char) (h1 : v.head? ≠ some ' ')
    (h2 : v.getLast? ≠ some ' ') : stripSpaces (' ' :: v) = v := by
  unfold stripSpaces
  have hfront : List.dropWhile (· = ' ') (' ' :: v) = v := by
    rw [List.dropWhile_cons, if_pos (by decide)]
    exact dropWhile_space_of_head v h1
  rw [hfront]
  rw [dropWhile_space_of_head v.reverse (by rw [List.head?_reverse]; exact h2)]
  exact List.reverse_reverse v

theorem classify_kv_line (k v : List Char) (hk : goodKey k) (hv : goodVal v) :
    classifyIniLine (k ++ ' ' :: '=' :: ' ' :: v) = IniLine.kv k v := by
  obtain ⟨hk0, hkh, hkc1, hkc2, hkc3, hkl, hkd⟩ := hk
  obtain ⟨hv0, hvh, hvl⟩ := hv
  obtain ⟨c, k', rfl⟩ : ∃ c k', k = c :: k' := by
    cases k with
    | nil => exact absurd rfl hk0
    | cons c k' => exact ⟨c, k', rfl⟩
  have hlineLast :
      ((c :: k') ++ ' ' :: '=' :: ' ' :: v).getLast? = v.getLast? := by
    rw [getLast_append_ne_nil _ _ (by simp)]
    show ([' ', '=', ' '] ++ v).getLast? = v.getLast?
    rw [getLast_append_ne_nil _ _ hv0]
  have hstrip : stripSpaces ((c :: k') ++ ' ' :: '=' :: ' ' :: v) =
      (c :: k') ++ ' ' :: '=' :: ' ' :: v :=
    stripSpaces_noop _ (by simpa using hkh) (by rw [hlineLast]; exact hvl)
  have hc1 : ¬ (c = '#' ∨ c = ';') := by
    rintro (h | h)
    · exact hkc1 (by rw [h]; rfl)
    · exact hkc2 (by rw [h]; rfl)
  have hc3 : c ≠ '[' := fun h => hkc3 (by rw [h]; rfl)
  have hsplit : splitAtDelim ((c :: k') ++ ' ' :: '=' :: ' ' :: v) =
      some ((c :: k') ++ [' '], ' ' :: v) := by
    have he : (c :: k') ++ ' ' :: '=' :: ' ' :: v =
        ((c :: k') ++ [' ']) ++ '=' :: ' ' :: v := by simp
    rw [he]
    refine splitAtDelim_append _ ?_ '=' (by decide) _
    intro x hx
    rcases List.mem_append.mp hx with h | h
    · exact hkd x h
    · rcases List.mem_singleton.mp h with rfl
      decide
  unfold classifyIniLine
  rw [hstrip]
  simp only [List.cons_append]
  rw [if_neg hc1]
  rw [if_neg (fun h => hc3 h.1)]
  simp only [← List.cons_append, hsplit]
  rw [stripSpaces_key_pad (c :: k') hk0 hkh hkl,
    stripSpaces_val_pad v hvh hvl]

theorem classify_header_line (name : List Char) (h : name ≠ []) :
    classifyIniLine ('[' :: name ++ [']']) = IniLine.header name := by
  have hlast : ('[' :: name ++ [']']).getLast? = some ']' := by
    rw [show '[' :: name ++ [']'] = ('[' :: name) ++ [']'] by simp]
    exact List.getLast?_concat _
  have hstrip : stripSpaces ('[' :: name ++ [']']) = '[' :: name ++ [']'] :=
    stripSpaces_noop _ (by simp) (by rw [hlast]; simp)
  have hrestLast : (name ++ [']']).getLast? = some ']' := List.getLast?_concat _
  have hrestDrop : (name ++ [']']).dropLast = name := List.dropLast_concat
  unfold classifyIniLine
  rw [hstrip]
  simp only [List.cons_append]
  rw [if_neg (by decide : ¬ ('[' = '#' ∨ '[' = ';'))]
  rw [if_pos ⟨trivial, hrestLast, by rw [hrestDrop]; exact h⟩]
  rw [hrestDrop]

theorem classify_blank : classifyIniLine [] = IniLine.blank := rfl

theorem parseIniGo_kv_block (opts : List (List Char × List Char))
    (hopts : ∀ kv ∈ opts, goodKey kv.1 ∧ goodVal kv.2) :
    ∀ (rest : List (List Char)) (name : List Char)
      (acc : List (List Char × List Char)),
      parseIniGo
        ((opts.map fun kv => kv.1 ++ ' ' :: '=' :: ' ' :: kv.2) ++ rest)
        name acc =
      parseIniGo rest name (acc ++ opts) := by
  induction opts with
  | nil => intro rest name acc; simp
  | cons kv opts' ih =>
      intro rest name acc
      have hkv := hopts kv (List.mem_cons_self kv opts')
      simp only [List.map_cons, List.cons_append, parseIniGo,
        classify_kv_line kv.1 kv.2 hkv.1 hkv.2, List.append_eq]
      rw [ih (fun x hx => hopts x (List.mem_cons_of_mem kv hx)) rest name
        (acc ++ [(kv.1, kv.2)])]
      simp

theorem parseIniGo_writeIni (store : List IniSec) :
    (∀ s ∈ store, goodSec s) →
    ∀ (name : List Char) (acc : List (List Char × List Char)),
      parseIniGo (writeIni store) name acc = ⟨name, acc⟩ :: store := by
  induction store with
  | nil => intro _ name acc; rfl
  | cons s ss ih =>
      intro h name acc
      have hs := h s (List.mem_cons_self s ss)
      have hw : writeIni (s :: ss) = ('[' :: s.name ++ [']']) ::
          ((s.options.map fun kv => kv.1 ++ ' ' :: '=' :: ' ' :: kv.2) ++
            ([] :: writeIni ss)) := by
        simp [writeIni, writeIniSec, List.flatten_cons, List.append_assoc]
      rw [hw]
      simp only [parseIniGo, classify_header_line s.name hs.1]
      rw [parseIniGo_kv_block s.options hs.2 ([] :: writeIni ss) s.name []]
      simp only [List.nil_append, parseIniGo, classify_blank]
      rw [ih (fun x hx => h x (List.mem_cons_of_mem s hx)) s.name s.options]

/-- C8 amended: writing the Policy Store and reading it back reproduces
every section and every well-formed option exactly (keys nonempty, with
no surrounding space, no delimiter character, and not starting with
`#`, `;` or `[`; values nonempty with no surrounding space) — but not
the stagnant marker: its key `# stagnant` starts with the comment
prefix, so its line is dropped as a comment on the next read. -/
theorem policy_store_roundtrip (store : List IniSec)
    (h : ∀ s ∈ store, goodSec s) : parseIni (writeIni store) = store := by
  cases store with
  | nil => rfl
  | cons s ss =>
      have hs := h s (List.mem_cons_self s ss)
      have hw : writeIni (s :: ss) = ('[' :: s.name ++ [']']) ::
          ((s.options.map fun kv => kv.1 ++ ' ' :: '=' :: ' ' :: kv.2) ++
            ([] :: writeIni ss)) := by
        simp [writeIni, writeIniSec, List.flatten_cons, List.append_assoc]
      rw [hw]
      simp only [parseIni, classify_header_line s.name hs.1]
      rw [parseIniGo_kv_block s.options hs.2 ([] :: writeIni ss) s.name []]
      simp only [List.nil_append, parseIniGo, classify_blank]
      rw [parseIniGo_writeIni ss (fun x hx => h x (List.mem_cons_of_mem s hx))
        s.name s.options]

/-- C8 counterexample: a section carrying the stagnant marker under the
key `# stagnant` (as `identify_and_reduce_stagnant` stores it) does not
survive a write/read round trip: the marker line is re-read as a
comment and dropped, while the ordinary fields survive. -/
theorem policy_store_roundtrip_cex :
    parseIni (writeIni [⟨"autofee-1x2x3".data,
        [("fee_ppm".data, "120".data), ("# stagnant".data, "true".data)]⟩]) ≠
      [⟨"autofee-1x2x3".data,
        [("fee_ppm".data, "120".data), ("# stagnant".data, "true".data)]⟩] ∧
    parseIni (writeIni [⟨"autofee-1x2x3".data,
        [("fee_ppm".data, "120".data), ("# stagnant".data, "true".data)]⟩]) =
      [⟨"autofee-1x2x3".data, [("fee_ppm".data, "120".data)]⟩] := by
  constructor
  · decide
  · decide

/-- Witness for C8 (amended): a complete policy entry with all five
fields written by the engine round-trips exactly. -/
theorem policy_store_roundtrip_witness :
    parseIni (writeIni [⟨"autofee-892471x1023x1".data,
        [("chan.id".data, "981241572913250305".data),
         ("strategy".data, "static".data),
         ("fee_ppm".data, "120".data),
         ("inbound_fee_ppm".data, "-300".data),
         ("max_htlc_msat".data, "1000000000".data)]⟩]) =
      [⟨"autofee-892471x1023x1".data,
        [("chan.id".data, "981241572913250305".data),
         ("strategy".data, "static".data),
         ("fee_ppm".data, "120".data),
         ("inbound_fee_ppm".data, "-300".data),
         ("max_htlc_msat".data, "1000000000".data)]⟩] :=
  policy_store_roundtrip _ (by decide)

theorem enforce_step_other (avg : ℕ → Option ℚ) (acc : (ℕ → Option ℤ) × ℕ)
    (cfg : ChannelMinimum) (s : ℕ) (h : s ≠ cfg.chan_id) :
    (enforce_step avg acc cfg).1 s = acc.1 s := by
  unfold enforce_step
  cases hm : get_channel_minimum cfg avg with
  | none => rfl
  | some m =>
      cases hs : acc.1 cfg.chan_id with
      | none => rfl
      | some cur =>
          by_cases hlt : cur < m
          · simp [hlt, h]
          · simp [hlt]

theorem enforce_step_none (avg : ℕ → Option ℚ) (acc : (ℕ → Option ℤ) × ℕ)
    (cfg : ChannelMinimum) (s : ℕ) (h : acc.1 s = none) :
    (enforce_step avg acc cfg).1 s = none := by
  by_cases hcs : s = cfg.chan_id
  · subst hcs
    unfold enforce_step
    cases hm : get_channel_minimum cfg avg with
    | none => exact h
    | some m => rw [h]; exact h
  · rw [enforce_step_other avg acc cfg s hcs]; exact h

theorem enforce_step_mono (avg : ℕ → Option ℚ) (acc : (ℕ → Option ℤ) × ℕ)
    (cfg : ChannelMinimum) (s : ℕ) (c : ℤ) (h : acc.1 s = some c) :
    ∃ c', (enforce_step avg acc cfg).1 s = some c' ∧ c ≤ c' := by
  by_cases hcs : s = cfg.chan_id
  · subst hcs
    unfold enforce_step
    cases hm : get_channel_minimum cfg avg with
    | none => exact ⟨c, h, le_refl c⟩
    | some m =>
        rw [h]
        by_cases hlt : c < m
        · exact ⟨m, by simp [hlt], le_of_lt hlt⟩
        · exact ⟨c, by simp [hlt, h], le_refl c⟩
  · exact ⟨c, by rw [enforce_step_other avg acc cfg s hcs]; exact h, le_refl c⟩

theorem enforce_fold_none (avg : ℕ → Option ℚ) :
    ∀ (l : List ChannelMinimum) (acc : (ℕ → Option ℤ) × ℕ) (s : ℕ),
      acc.1 s = none → (l.foldl (enforce_step avg) acc).1 s = none := by
  intro l
  induction l with
  | nil => intro acc s h; exact h
  | cons cfg l' ih =>
      intro acc s h
      exact ih (enforce_step avg acc cfg) s (enforce_step_none avg acc cfg s h)

theorem enforce_fold_mono (avg : ℕ → Option ℚ) :
    ∀ (l : List ChannelMinimum) (acc : (ℕ → Option ℤ) × ℕ) (s : ℕ) (c : ℤ),
      acc.1 s = some c →
      ∃ c', (l.foldl (enforce_step avg) acc).1 s = some c' ∧ c ≤ c' := by
  intro l
  induction l with
  | nil => intro acc s c h; exact ⟨c, h, le_refl c⟩
  | cons cfg l' ih =>
      intro acc s c h
      obtain ⟨c1, h1, hc1⟩ := enforce_step_mono avg acc cfg s c h
      obtain ⟨c2, h2, hc2⟩ := ih (enforce_step avg acc cfg) s c1 h1
      exact ⟨c2, h2, le_trans hc1 hc2⟩

theorem enforce_fold_other (avg : ℕ → Option ℚ) :
    ∀ (l : List ChannelMinimum) (acc : (ℕ → Option ℤ) × ℕ) (s : ℕ),
      (∀ cfg ∈ l, s ≠ cfg.chan_id) →
      (l.foldl (enforce_step avg) acc).1 s = acc.1 s := by
  intro l
  induction l with
  | nil => intro acc s _; rfl
  | cons cfg l' ih =>
      intro acc s h
      rw [List.foldl_cons,
        ih (enforce_step avg acc cfg) s
          (fun x hx => h x (List.mem_cons_of_mem cfg hx)),
        enforce_step_other avg acc cfg s (h cfg (List.mem_cons_self cfg l'))]

theorem feeAtLeast_step (avg : ℕ → Option ℚ) (acc : (ℕ → Option ℤ) × ℕ)
    (cfg : ChannelMinimum) (m : ℤ) (s : ℕ) (h : feeAtLeast m (acc.1 s)) :
    feeAtLeast m ((enforce_step avg acc cfg).1 s) := by
  cases hs : acc.1 s with
  | none =>
      intro c hc
      rw [enforce_step_none avg acc cfg s hs] at hc
      exact absurd hc (by simp)
  | some cur =>
      intro c hc
      obtain ⟨c1, h1, hc1⟩ := enforce_step_mono avg acc cfg s cur hs
      rw [h1] at hc
      obtain rfl : c1 = c := Option.some_injective ℤ hc
      exact le_trans (h cur hs) hc1

theorem feeAtLeast_fold (avg : ℕ → Option ℚ) :
    ∀ (l : List ChannelMinimum) (acc : (ℕ → Option ℤ) × ℕ) (m : ℤ) (s : ℕ),
      feeAtLeast m (acc.1 s) →
      feeAtLeast m ((l.foldl (enforce_step avg) acc).1 s) := by
  intro l
  induction l with
  | nil => intro acc m s h; exact h
  | cons cfg l' ih =>
      intro acc m s h
      exact ih (enforce_step avg acc cfg) m s (feeAtLeast_step avg acc cfg m s h)

theorem enforce_step_establish (avg : ℕ → Option ℚ)
    (acc : (ℕ → Option ℤ) × ℕ) (cfg : ChannelMinimum) (m : ℤ)
    (hm : get_channel_minimum cfg avg = some m) :
    feeAtLeast m ((enforce_step avg acc cfg).1 cfg.chan_id) := by
  unfold enforce_step
  rw [hm]
  cases hs : acc.1 cfg.chan_id with
  | none =>
      intro c hc
      rw [hs] at hc
      exact absurd hc (by simp)
  | some cur =>
      by_cases hlt : cur < m
      · intro c hc
        simp only [if_pos hlt, if_pos rfl] at hc
        exact le_of_eq (Option.some_injective ℤ hc)
      · intro c hc
        simp only [if_neg hlt] at hc
        rw [hs] at hc
        obtain rfl : cur = c := Option.some_injective ℤ hc
        exact not_lt.mp hlt

theorem enforce_fold_establish (avg : ℕ → Option ℚ) :
    ∀ (l : List ChannelMinimum) (acc : (ℕ → Option ℤ) × ℕ)
      (cfg : ChannelMinimum), cfg ∈ l → ∀ (m : ℤ),
      get_channel_minimum cfg avg = some m →
      feeAtLeast m ((l.foldl (enforce_step avg) acc).1 cfg.chan_id) := by
  intro l
  induction l with
  | nil => intro acc cfg hmem; exact absurd hmem (List.not_mem_nil cfg)
  | cons cfg0 l' ih =>
      intro acc cfg hmem m hm
      rcases List.mem_cons.mp hmem with rfl | hmem'
      · exact feeAtLeast_fold avg l' (enforce_step avg acc cfg) m cfg.chan_id
          (enforce_step_establish avg acc cfg m hm)
      · exact ih (enforce_step avg acc cfg0) cfg hmem' m hm

theorem enforce_fold_fixed (avg : ℕ → Option ℚ) :
    ∀ (l : List ChannelMinimum) (st : ℕ → Option ℤ) (n : ℕ),
      (∀ cfg ∈ l, ∀ m, get_channel_minimum cfg avg = some m →
        feeAtLeast m (st cfg.chan_id)) →
      l.foldl (enforce_step avg) (st, n) = (st, n) := by
  intro l
  induction l with
  | nil => intro st n _; rfl
  | cons cfg l' ih =>
      intro st n h
      have hstep : enforce_step avg (st, n) cfg = (st, n) := by
        unfold enforce_step
        cases hm : get_channel_minimum cfg avg with
        | none => rfl
        | some m =>
            cases hs : (st, n).1 cfg.chan_id with
            | none => rfl
            | some cur =>
                have hmc : m ≤ cur := h cfg (List.mem_cons_self cfg l') m hm cur hs
                simp [not_lt.mpr hmc]
      rw [List.foldl_cons, hstep]
      exact ih st n (fun x hx => h x (List.mem_cons_of_mem cfg hx))

theorem enforce_step_at (avg : ℕ → Option ℚ) (acc : (ℕ → Option ℤ) × ℕ)
    (cfg : ChannelMinimum) (m c : ℤ)
    (hm : get_channel_minimum cfg avg = some m)
    (hc : acc.1 cfg.chan_id = some c) :
    (enforce_step avg acc cfg).1 cfg.chan_id = some (max c m) := by
  unfold enforce_step
  rw [hm, hc]
  by_cases hlt : c < m
  · simp [hlt, max_eq_right (le_of_lt hlt)]
  · simp [hlt, hc, max_eq_left (not_lt.mp hlt)]

/-- C9: the Minimum-Fee Enforcer never lowers or removes any fee;
channels outside the enabled configuration keep their entries
unchanged; a channel configured exactly once with a determinable floor
`m` and a present fee `c` ends at `max c m`; and re-running the
enforcer on its own output raises nothing (`channels_raised = 0`, so no
INI write occurs). -/
theorem minfee_enforcer :
    ∀ (cfgs : List ChannelMinimum) (avg_fees : ℕ → Option ℚ)
      (store : ℕ → Option ℤ),
      (∀ (s : ℕ) (c : ℤ), store s = some c →
        ∃ c', (enforce_minimum_fees cfgs avg_fees store).1 s = some c' ∧
          c ≤ c') ∧
      (∀ s : ℕ, store s = none →
        (enforce_minimum_fees cfgs avg_fees store).1 s = none) ∧
      (∀ s : ℕ,
        (∀ cfg ∈ cfgs.filter (fun c => c.enabled), s ≠ cfg.chan_id) →
        (enforce_minimum_fees cfgs avg_fees store).1 s = store s) ∧
      (∀ (l1 l2 : List ChannelMinimum) (cfg : ChannelMinimum) (m c : ℤ),
        cfgs.filter (fun c => c.enabled) = l1 ++ cfg :: l2 →
        (∀ x ∈ l1, cfg.chan_id ≠ x.chan_id) →
        (∀ x ∈ l2, cfg.chan_id ≠ x.chan_id) →
        get_channel_minimum cfg avg_fees = some m →
        store cfg.chan_id = some c →
        (enforce_minimum_fees cfgs avg_fees store).1 cfg.chan_id =
          some (max c m)) ∧
      enforce_minimum_fees cfgs avg_fees
          (enforce_minimum_fees cfgs avg_fees store).1 =
        ((enforce_minimum_fees cfgs avg_fees store).1, 0) := by
  intro cfgs avg store
  refine ⟨?_, ?_, ?_, ?_, ?_⟩
  · intro s c h
    exact enforce_fold_mono avg (cfgs.filter (fun c => c.enabled))
      (store, 0) s c h
  · intro s h
    exact enforce_fold_none avg (cfgs.filter (fun c => c.enabled))
      (store, 0) s h
  · intro s h
    exact enforce_fold_other avg (cfgs.filter (fun c => c.enabled))
      (store, 0) s h
  · intro l1 l2 cfg m c hsplit h1 h2 hm hc
    unfold enforce_minimum_fees
    rw [hsplit, List.foldl_append, List.foldl_cons]
    have hacc1 : (l1.foldl (enforce_step avg) (store, 0)).1 cfg.chan_id =
        some c := by
      rw [enforce_fold_other avg l1 (store, 0) cfg.chan_id h1]
      exact hc
    rw [enforce_fold_other avg l2 _ cfg.chan_id h2]
    exact enforce_step_at avg (l1.foldl (enforce_step avg) (store, 0)) cfg m c
      hm hacc1
  · unfold enforce_minimum_fees
    exact enforce_fold_fixed avg (cfgs.filter (fun c => c.enabled)) _ 0
      (fun cfg hmem m hm =>
        enforce_fold_establish avg (cfgs.filter (fun c => c.enabled))
          (store, 0) cfg hmem m hm)

/-- Witness for C9 at a concrete input: one enabled static floor of
`100` over a store holding fee `40`. -/
theorem minfee_enforcer_witness :
    (enforce_minimum_fees [⟨5, MinType.static (some 100), true⟩]
        (fun _ => none) (fun s => if s = 5 then some 40 else none)).1 5 =
      some (max 40 100) :=
  (minfee_enforcer [⟨5, MinType.static (some 100), true⟩] (fun _ => none)
      (fun s => if s = 5 then some 40 else none)).2.2.2.1
    [] [] ⟨5, MinType.static (some 100), true⟩ 100 40 rfl
    (by simp) (by simp) rfl rfl
